import Mathlib

/-!
Verification development for the srcembed repository: a command-line filter
that reads bytes from stdin and emits a C/C++ source fragment declaring a
constant byte array with the input bytes as comma-separated decimal values.

The definitions below shallowly embed the relevant code:
  * the compile-time format compiler of meta_printf
    (`generate_blueprint_parse_table`, `create_program`) and its decimal
    emission table (`generate_uint8_string_lookup_list`, `output_uint8`),
  * the formatter execution into a memory sink (`execute_program`,
    `meta_sprintf_no_terminator`),
  * the buffered transport engine (`dataMode_read_write`) and the framing
    logic of `outputSource` / `output_C_CPP_array_data` from main.cpp,
  * the size_t loop-bound arithmetic of the mmap engines, and
  * spec-modelled versions of the async stdin/stdout streams (the final
    stream implementation used by main.cpp is not present in the source
    snapshot; the header contains an earlier draft without the
    `get_data_ptr` byte-count API that main.cpp calls).

Bytes are modelled as `Nat` values (< 256 where it matters); C++ `size_t`
arithmetic is modelled explicitly modulo 2^64.
-/

set_option maxRecDepth 100000

/-- Byte list of a Lean string literal (ASCII), used to transcribe the
string literals appearing in the C++ source. -/
def strBytes (s : String) : List Nat := s.toList.map Char.toNat

/-- Operation classifier of the blueprint parse table
(enum `op_type_t : uint8_t { INVALID, NOOP, TEXT, UINT8, EOFOP }` in meta_printf). -/
inductive op_type_t where
  | INVALID
  | NOOP
  | TEXT
  | UINT8
  | EOFOP
deriving DecidableEq, Repr

/-- Entry of the blueprint parse table (struct `parse_table_element`
with fields `next_state` and `op_type`). Zero initialisation of the C++
table gives `next_state = 0` and `op_type = INVALID` (enumerator 0). -/
structure parse_table_element where
  next_state : Nat
  op_type : op_type_t
deriving DecidableEq, Repr

/-- Embedding of `generate_blueprint_parse_table` (meta_printf): a 129 x 3
table, zero-initialised to INVALID; characters 0..127 in state 1 map to
TEXT with next state 1; the entry for `%` (37) in state 1 is overwritten
to NOOP with next state 2; `u` (117) in state 2 maps to UINT8 with next
state 1; the end-of-input column (index 128) of state 1 is marked EOFOP
(its `next_state` keeps its zero initialisation). -/
def generate_blueprint_parse_table : List parse_table_element :=
  let table := List.replicate (129 * 3) ⟨0, op_type_t.INVALID⟩
  let table := (List.range 128).foldl
    (fun t i => t.set (1 * 129 + i) ⟨1, op_type_t.TEXT⟩) table
  let table := table.set (1 * 129 + 37) ⟨2, op_type_t.NOOP⟩
  let table := table.set (2 * 129 + 117) ⟨1, op_type_t.UINT8⟩
  table.set (1 * 129 + 128) ⟨0, op_type_t.EOFOP⟩

/-- The table constant (`inline constexpr auto blueprint_parse_table`). -/
def blueprint_parse_table : List parse_table_element :=
  generate_blueprint_parse_table

/-- Table lookup `blueprint_parse_table[state * 129 + c]` at a
non-negative column `c` (a 7-bit character or the end-of-input column
128). Indices outside the table read as the INVALID default. -/
def blueprint_parse_entry (state c : Nat) : parse_table_element :=
  blueprint_parse_table.getD (state * 129 + c) ⟨0, op_type_t.INVALID⟩

/-- Flat table index selected by a blueprint byte, as the source computes
it: the subscript is `state * 129 + blueprint[i]` where `blueprint[i]`
has type `char`, which is signed on the target, so a byte value in
128..255 enters the sum as `c - 256`. For the reachable states 1 and 2
the sum is still positive (at least 1), so a high byte does not index out
of bounds: it aliases into an earlier row of the table (row 0 for
state 1, row 1 for state 2). -/
def signed_table_index (state c : Nat) : Nat :=
  if c < 128 then state * 129 + c else state * 129 + c - 256

/-- Parse-table entry a blueprint byte selects, including the signed-char
aliasing of byte values 128..255. -/
def blueprint_parse_byte_entry (state c : Nat) : parse_table_element :=
  blueprint_parse_table.getD (signed_table_index state c) ⟨0, op_type_t.INVALID⟩

/-- Operation of a compiled blueprint program (struct `op` in meta_printf):
either a literal text span of the blueprint or a `%u` placeholder. -/
inductive op where
  | text (s : List Nat)
  | uint8
deriving DecidableEq, Repr

/-- Emission of a pending literal span, as done by `create_program` when a
span ends (`if (text_encountered) { ... }`): nothing if no literal text is
pending, otherwise a single text operation holding the span. -/
def flush_text (acc : List Nat) : List op :=
  if acc = [] then [] else [op.text acc]

/-- Embedding of the state-machine loop of `create_program` (meta_printf):
`state` is the automaton state (1 = literal text, 2 = just after `%`),
`acc` the pending literal span. Each byte is classified through
`blueprint_parse_table` at the signed-char index of
`blueprint_parse_byte_entry`; INVALID fails compilation (`none`), NOOP
flushes the pending span and moves to the entry's next state, TEXT
extends the span, UINT8 emits a placeholder operation. The source's
switch has no EOFOP case, so a byte whose entry is EOFOP (byte 255 in
state 2, aliased onto the end-of-input cell of row 1) is skipped with
the state and the span bookkeeping untouched; since the source records a
span as a slice of the blueprint (start index to flush position), a
skipped byte inside an open span stays in the flushed slice, hence
`acc ++ [c]` when the span is open and `[]` kept when it is not. At end
of input the source errors iff the end-of-input column of the current
state is INVALID, and otherwise flushes any pending span. -/
def create_program_aux : Nat → List Nat → List Nat → Option (List op)
  | state, acc, [] =>
    match (blueprint_parse_entry state 128).op_type with
    | op_type_t.INVALID => none
    | _ => some (flush_text acc)
  | state, acc, c :: rest =>
    let e := blueprint_parse_byte_entry state c
    match e.op_type with
    | op_type_t.INVALID => none
    | op_type_t.NOOP =>
      (create_program_aux e.next_state [] rest).map (fun l => flush_text acc ++ l)
    | op_type_t.TEXT => create_program_aux e.next_state (acc ++ [c]) rest
    | op_type_t.UINT8 =>
      (create_program_aux e.next_state [] rest).map (fun l => op.uint8 :: l)
    | op_type_t.EOFOP =>
      create_program_aux state (if acc = [] then [] else acc ++ [c]) rest

/-- Embedding of `create_program<blueprint>` (meta_printf): compile a
blueprint (its bytes, terminator excluded) into an operation program,
starting in state 1 with no pending text. `none` models the compile-time
failure "meta_printf invalid: blueprint invalid". -/
def create_program (bp : List Nat) : Option (List op) :=
  create_program_aux 1 [] bp

/-- Inner while-loop of `generate_uint8_string_lookup_list`: writes the
decimal digits of `value` right-to-left into the 4-byte record starting at
`true_index`, decrementing `blank_space` before each write, and stops when
the quotient reaches zero. The first argument bounds the remaining loop
iterations; the loop body runs at most 3 times for the 8-bit values the
table is built for, so the fuel of 4 used below never runs out. Returns
the final `blank_space` and the updated table. -/
def write_digit_loop : Nat → Nat → Nat → Nat → List Nat → Nat × List Nat
  | 0, _, blank_space, _, res => (blank_space, res)
  | fuel + 1, value, blank_space, true_index, res =>
    let bs := blank_space - 1
    let res' := res.set (true_index + bs) (value % 10 + 48)
    if value / 10 = 0 then (bs, res')
    else write_digit_loop fuel (value / 10) bs true_index res'

/-- Embedding of `generate_uint8_string_lookup_list` (meta_printf): a
zero-initialised 256 x 4 byte table; for each value i the digits of i are
written right-justified into bytes 1..3 of record i (byte offsets
`4*i + 3`, `4*i + 2`, ...), and the final `blank_space` count is stored in
byte 0 of the record. -/
def generate_uint8_string_lookup_list : List Nat :=
  (List.range 256).foldl
    (fun res i =>
      let p := write_digit_loop 4 i 4 (4 * i) res
      p.2.set (4 * i) p.1)
    (List.replicate (256 * 4) 0)

/-- The table constant (`inline constexpr auto uint8_string_lookup_list`). -/
def uint8_string_lookup_list : List Nat :=
  generate_uint8_string_lookup_list

/-- Embedding of `output_uint8` (meta_printf): read the blank count from
byte 0 of the record of `input`, then emit the `4 - blank_space` bytes of
the record starting at offset `blank_space`. The result is the byte list
handed to the outputter by `copy_input_from_ptr`. -/
def output_uint8 (input : Nat) : List Nat :=
  let lookup_index := input * 4
  let blank_space := uint8_string_lookup_list.getD lookup_index 0
  (uint8_string_lookup_list.drop (lookup_index + blank_space)).take (4 - blank_space)

/-- Digit recursion behind `decRepr`, structurally bounded by a fuel
argument (`n` itself more than suffices since a number has at most as many
digits as its magnitude). -/
def decReprAux : Nat → Nat → List Nat
  | 0, n => [n % 10 + 48]
  | fuel + 1, n =>
    if n < 10 then [n + 48]
    else decReprAux fuel (n / 10) ++ [n % 10 + 48]

/-- Mathematical decimal representation of a natural number as ASCII byte
codes, most significant digit first, with no leading zero (0 is "0").
This is the specification-side notion the emitted text is compared with. -/
def decRepr (n : Nat) : List Nat :=
  decReprAux n n

/-- Explicit form of the blueprint parse table: row 0 (state 0) is unused
and INVALID; row 1 maps the 128 characters to TEXT except `%` (37), which
is NOOP to state 2, with EOFOP in the end-of-input column 128; row 2 is
INVALID except `u` (117), which is UINT8 back to state 1. -/
def parse_table_spliced : List parse_table_element :=
  List.replicate 129 ⟨0, op_type_t.INVALID⟩
  ++ List.replicate 37 ⟨1, op_type_t.TEXT⟩ ++ [⟨2, op_type_t.NOOP⟩]
  ++ List.replicate 90 ⟨1, op_type_t.TEXT⟩ ++ [⟨0, op_type_t.EOFOP⟩]
  ++ List.replicate 117 ⟨0, op_type_t.INVALID⟩ ++ [⟨1, op_type_t.UINT8⟩]
  ++ List.replicate 11 ⟨0, op_type_t.INVALID⟩

/-- Per-value record of the decimal lookup table, computed locally on a
4-byte buffer; `uint8_table_records` identifies the full table with the
concatenation of these records. -/
def uint8_record (i : Nat) : List Nat :=
  let p := write_digit_loop 4 i 4 0 [0, 0, 0, 0]
  p.2.set 0 p.1

/-- Number of placeholder (`%u`) operations in a compiled program. -/
def count_uint8_ops : List op → Nat
  | [] => 0
  | op.uint8 :: rest => count_uint8_ops rest + 1
  | op.text _ :: rest => count_uint8_ops rest

/-- Number of (non-overlapping, left-to-right) `%u` occurrences in a
blueprint, the specification-side count the compiled program is compared
with. -/
def count_percent_u : List Nat → Nat
  | [] => 0
  | [_] => 0
  | c :: c' :: rest =>
    if c = 37 ∧ c' = 117 then count_percent_u rest + 1
    else count_percent_u (c' :: rest)

/-- Check that no two adjacent operations of a program are both literal
text (adjacent literal text must have been coalesced). -/
def no_adjacent_text : List op → Bool
  | op.text _ :: op.text _ :: _ => false
  | _ :: rest => no_adjacent_text rest
  | [] => true

/-- Check that every literal text operation of a program is non-empty. -/
def texts_nonempty : List op → Bool
  | [] => true
  | op.text s :: rest => (!s.isEmpty) && texts_nonempty rest
  | op.uint8 :: rest => texts_nonempty rest

/-- State of the memory sink (`class memory_outputter` in meta_printf):
the write pointer is modelled as an offset from the buffer start, and the
bytes written so far are carried explicitly. -/
structure memory_outputter where
  inner_ptr : Nat
  written : List Nat
deriving DecidableEq, Repr

/-- Embedding of `memory_outputter::copy_input_from_ptr`: append the
bytes and advance the write pointer; there is no failure path. -/
def memory_outputter.copy_input_from_ptr (o : memory_outputter)
    (bytes : List Nat) : memory_outputter :=
  ⟨o.inner_ptr + bytes.length, o.written ++ bytes⟩

/-- Embedding of `execute_program` (meta_printf) specialised to the
memory sink and `write_nul_terminator = false`: a Text operation copies
its literal span, a Uint8Placeholder consumes one argument and emits its
decimal text via `output_uint8`; a placeholder with no remaining argument
is the compile-time error "blueprint requires input arguments" (`none`).
Surplus arguments are ignored, as in the source's base case. -/
def execute_program : List op → List Nat → memory_outputter → Option memory_outputter
  | [], _, outputter => some outputter
  | op.text s :: rest, args, outputter =>
    execute_program rest args (outputter.copy_input_from_ptr s)
  | op.uint8 :: rest, arg :: args, outputter =>
    execute_program rest args (outputter.copy_input_from_ptr (output_uint8 arg))
  | op.uint8 :: _, [], _ => none

/-- Embedding of the `meta_sprintf_no_terminator` macro: run the program
on a fresh memory outputter at offset 0 and return
`execute_program(...) - outputter`, the advance of the write pointer. -/
def meta_sprintf_no_terminator (prog : List op) (args : List Nat) : Option Int :=
  (execute_program prog args ⟨0, []⟩).map (fun o => (o.inner_ptr : Int))

/-- Bytes deposited in the memory buffer by a `meta_sprintf_no_terminator`
call (the content the transport engines go on to splice or write). -/
def sprintf_bytes (prog : List op) (args : List Nat) : Option (List Nat) :=
  (execute_program prog args ⟨0, []⟩).map (fun o => o.written)

/-- Embedding of `generate_chunked_printf_pattern` (main.cpp): write the
single-byte pattern (terminator excluded) at consecutive offsets k times,
i.e. concatenate k copies. -/
def generate_chunked_printf_pattern (single : List Nat) (k : Nat) : List Nat :=
  (List.range k).foldl (fun result _ => result ++ single) []

/-- The initial-byte blueprint `"%u"` of `output_C_CPP_array_data`. -/
def initial_printf_pattern : List Nat := strBytes "%u"

/-- The single-byte blueprint `", %u"` of `output_C_CPP_array_data`. -/
def single_printf_pattern : List Nat := strBytes ", %u"

/-- The chunk blueprint: `", %u"` repeated 32 times (`COUNT_TO_31_FROM_0`
supplies 32 chunk indices). -/
def printf_pattern : List Nat :=
  generate_chunked_printf_pattern single_printf_pattern 32

/-- Program compiled from the initial blueprint (a compile-time constant
in the source; an invalid blueprint would not compile at all, and
`create_program_initial` below shows the default is not taken). -/
def initial_program : List op := (create_program initial_printf_pattern).getD []

/-- Program compiled from the single-byte blueprint. -/
def single_program : List op := (create_program single_printf_pattern).getD []

/-- Program compiled from the chunk blueprint. -/
def chunked_program : List op := (create_program printf_pattern).getD []

/-- Outcome of a transport engine run: `no_data` models `return false`
on empty stdin, `fatal` models the REPORT_ERROR_AND_EXIT paths, `success`
carries the bytes emitted to stdout. -/
inductive engine_result where
  | no_data
  | fatal
  | success (out : List Nat)
deriving DecidableEq, Repr

/-- Tail loop of `dataMode_read_write`: when a read returns fewer than 32
bytes (EOF), each received byte is emitted with the single-byte program. -/
def singles_emit : List Nat → Option (List Nat)
  | [] => some []
  | b :: bs =>
    match sprintf_bytes single_program [b], singles_emit bs with
    | some e, some r => some (e ++ r)
    | _, _ => none

/-- Main loop of `dataMode_read_write`: as long as a full 32-byte chunk is
available, emit it with the chunk program; a short read ends the loop and
the remainder is emitted byte by byte. The first argument is a structural
bound on the number of chunk iterations (at most one per input byte), so
the fuel `bs.length` supplied by `chunk_loop` never runs out. -/
def chunk_loop_go : Nat → List Nat → Option (List Nat)
  | fuel, bs =>
    if 32 ≤ bs.length then
      match fuel with
      | 0 => none
      | fuel + 1 =>
        match sprintf_bytes chunked_program (bs.take 32),
              chunk_loop_go fuel (bs.drop 32) with
        | some c, some r => some (c ++ r)
        | _, _ => none
    else singles_emit bs

/-- The chunk loop of `dataMode_read_write` over the bytes after the first. -/
def chunk_loop (bs : List Nat) : Option (List Nat) :=
  chunk_loop_go bs.length bs

/-- Embedding of `dataMode_read_write` (main.cpp): read one byte (none ⇒
`return false`, i.e. no data), emit it with the initial program, then run
the chunk loop over the remaining bytes. I/O failures of the raw streams
are outside this model; `fatal` covers the meta_sprintf error branches. -/
def dataMode_read_write (input : List Nat) : engine_result :=
  match input with
  | [] => engine_result.no_data
  | b :: bs =>
    match sprintf_bytes initial_program [b], chunk_loop bs with
    | some first, some rest => engine_result.success (first ++ rest)
    | _, _ => engine_result.fatal

/-- Observable outcome of the process: normal completion with the bytes
written to stdout, or an exit via `writeErrorAndExit` carrying the stdout
bytes written so far, the stderr bytes and the exit code. -/
inductive proc_result where
  | ok (stdout : List Nat)
  | exited (stdout : List Nat) (stderr : List Nat) (code : Nat)
deriving DecidableEq, Repr

/-- Bytes written to stderr by `REPORT_ERROR_AND_EXIT(message, code)`:
the macro expands to `writeErrorAndExit("ERROR: " message "\n", code)`,
which writes the literal without its terminator. -/
def report_error_bytes (message : String) : List Nat :=
  strBytes ("ERROR: " ++ message ++ "\n")

/-- Embedding of `output_C_CPP_array_data` (main.cpp): run the transport
engine; `false` (no data) triggers
`REPORT_ERROR_AND_EXIT("no data received, language requires data",
EXIT_FAILURE)`. `stdout_so_far` carries the bytes already written to
stdout before the data stage (the declaration head emitted by
`outputSource`). -/
def output_C_CPP_array_data (stdout_so_far : List Nat) (input : List Nat) :
    proc_result :=
  match dataMode_read_write input with
  | engine_result.no_data =>
    proc_result.exited stdout_so_far
      (report_error_bytes "no data received, language requires data") 1
  | engine_result.fatal =>
    proc_result.exited stdout_so_far
      (report_error_bytes "failed to process data: meta_sprintf_no_terminator failed") 1
  | engine_result.success out => proc_result.ok (stdout_so_far ++ out)

/-- Embedding of `outputSource` (main.cpp): for language "c++" print
`const char <varname>[] { ` and flush, for "c" print
`const char <varname>[] = { ` and flush, then run the data stage and
finally write ` };\n`; any other language is
`REPORT_ERROR_AND_EXIT("invalid language", EXIT_SUCCESS)`. -/
def outputSource (language varname input : List Nat) : proc_result :=
  if language = strBytes "c++" then
    match output_C_CPP_array_data
        (strBytes "const char " ++ varname ++ strBytes "[] \x7b ") input with
    | proc_result.ok so => proc_result.ok (so ++ strBytes " \x7d;\n")
    | r => r
  else if language = strBytes "c" then
    match output_C_CPP_array_data
        (strBytes "const char " ++ varname ++ strBytes "[] = \x7b ") input with
    | proc_result.ok so => proc_result.ok (so ++ strBytes " \x7d;\n")
    | r => r
  else proc_result.exited [] (report_error_bytes "invalid language") 0

/-- Value of an ASCII decimal digit string (used to state the round-trip
direction of the framing law). -/
def parse_dec (digits : List Nat) : Nat :=
  digits.foldl (fun acc d => acc * 10 + (d - 48)) 0

/-- Decoder for the emitted array body: split at commas, strip the leading
space of each later piece, and parse each decimal. Recovering the input
bytes from the output text is the round-trip content of the framing law. -/
def decode_body (body : List Nat) : List Nat :=
  (body.splitOn 44).map (fun piece => parse_dec (piece.dropWhile (fun d => d == 32)))

/-- Modulus of C++ `size_t` arithmetic on the 64-bit target. -/
def SIZE_T_MOD : Nat := 2 ^ 64

/-- Loop bound `stdinFileSize + 1 - bytes_per_chunk` of the chunk loop in
`dataMode_mmap_write` (main.cpp line 331), computed in `size_t`
arithmetic with `bytes_per_chunk = 32`: for `stdinFileSize < 31` the
subtraction wraps around to a value near 2^64. -/
def mmap_write_loop_bound (stdinFileSize : Nat) : Nat :=
  (stdinFileSize + 1 + (SIZE_T_MOD - 32)) % SIZE_T_MOD

/-- Cutoff `stdinFileSize - bytes_per_chunk` of `dataMode_mmap_vmsplice`
(main.cpp line 203) in `size_t` arithmetic: for `stdinFileSize < 32` the
subtraction wraps around, so `stdinFileDataPosition > cutoff` stays false
and the engine keeps emitting chunks past the end of the file. -/
def mmap_vmsplice_cutoff (stdinFileSize : Nat) : Nat :=
  (stdinFileSize + (SIZE_T_MOD - 32)) % SIZE_T_MOD

/-- Byte visible through the read-only mapping of the stdin file at a
given offset: file bytes, then the kernel's zero fill of the final page
(reads beyond the page fault, which this prefix model does not reach). -/
def mmap_byte (fileData : List Nat) (i : Nat) : Nat := fileData.getD i 0

/-- The initial emission of `dataMode_mmap_write` plus its first chunk
iteration when the (wrapped) `size_t` loop condition `1 < size + 1 - 32`
admits one, reading the 32 chunk bytes through the mapping starting at
offset 1. Engine output is append-only, so this is a prefix of the
engine's stdout. -/
def dataMode_mmap_write_output_head (fileData : List Nat) : Option (List Nat) :=
  match fileData with
  | [] => none
  | b0 :: _ =>
    match sprintf_bytes initial_program [b0] with
    | none => none
    | some first =>
      if 1 < mmap_write_loop_bound fileData.length then
        (sprintf_bytes chunked_program
          ((List.range 32).map (fun j => mmap_byte fileData (1 + j)))).map
          (fun c => first ++ c)
      else some first

/-- Modelled from the spec: result of one background-reader fill of a
half-buffer of the async stdin stream (spec 4.3). The final stream
implementation (the `get_data_ptr` byte-count API used by main.cpp) is
not present under src/; the header holds an earlier draft without EOF
handling, so this model follows the specified behaviour: on a short read
(EOF mid-fill) the reader records the valid end position in
`stream_write_head`, clears `io_pending` and terminates
(`reader_alive = false`); on an exact fill it clears `io_pending` and
stays alive. -/
structure reader_fill_result where
  half : List Nat
  remaining : List Nat
  stream_write_head : Option Nat
  io_pending : Bool
  reader_alive : Bool
deriving DecidableEq, Repr

/-- Modelled from the spec: one background-reader fill of a half-buffer
of capacity B from the bytes the OS still has (spec 4.3, "Background
reader loop"). -/
def reader_fill (B : Nat) (remaining : List Nat) : reader_fill_result :=
  if remaining.length < B then
    ⟨remaining, [], some remaining.length, false, false⟩
  else
    ⟨remaining.take B, remaining.drop B, none, false, true⟩

/-- Modelled from the spec: the consumer read of the async stdin stream
(spec 4.3, "Consumer read"): serve the request from the active half; when
it runs out, wait for the reader's fill of the other half, swap, and
continue; when EOF is reached before the request is satisfied, return the
bytes gathered (fewer than requested, signalling EOF to the caller). The
`B = 0` branch is a degenerate buffer size excluded by the spec (B >= 1). -/
def stream_read (B : Nat) : Nat → List Nat → List Nat → List Nat
  | n, active, remaining =>
    if n ≤ active.length then active.take n
    else if remaining = [] then active
    else if B = 0 then active
    else active ++ stream_read B (n - active.length)
      (reader_fill B remaining).half (reader_fill B remaining).remaining
termination_by n active remaining => remaining.length
decreasing_by
  simp only [reader_fill]
  split
  · simpa using List.length_pos.mpr (by assumption)
  · simp only [List.length_drop]
    rename_i hrem hB hfull
    have h1 : remaining.length ≠ 0 := fun h => hrem (List.length_eq_zero.mp h)
    omega

/-- Modelled from the spec: the producer write of the async stdout stream
(spec 4.4). `active` is the filled part of the active half (its fill level
is strictly below B between calls). A write that fits leaves the bytes in
the active half; otherwise the half is topped up to exactly B bytes,
handed off to the flusher (whose write of those B bytes is the emitted
first component), and the remainder continues into the fresh half. The
`free = 0` branch is unreachable while the fill-level invariant holds. -/
def stdout_write (B : Nat) : List Nat → List Nat → List Nat × List Nat
  | input, active =>
    let free := B - active.length
    if input.length < free then ([], active ++ input)
    else if free = 0 then ([], active)
    else
      let p := stdout_write B (input.drop free) []
      ((active ++ input.take free) ++ p.1, p.2)
termination_by input active => input.length
decreasing_by
  simp only [List.length_drop]
  rename_i hnotlt hfree
  omega

/-- Modelled from the spec: a full producer session on the async stdout
stream — `write(w1); write(w2); ...; flush(); dispose()` (spec 4.4). The
writes are folded over the stream state (bytes already flushed to stdout,
content of the active half); the final flush/dispose drains the active
half. The result is everything stdout receives, in order. -/
def stdout_run (B : Nat) (ws : List (List Nat)) : List Nat :=
  let p := ws.foldl
    (fun (s : List Nat × List Nat) w =>
      let r := stdout_write B w s.2
      (s.1 ++ r.1, r.2))
    ([], [])
  p.1 ++ p.2

example : decRepr 0 = strBytes "0" := by decide
example : decRepr 7 = strBytes "7" := by decide
example : decRepr 42 = strBytes "42" := by decide
example : decRepr 255 = strBytes "255" := by decide
example : create_program (strBytes "%u") = some [op.uint8] := by decide
example : create_program (strBytes ", %u") =
    some [op.text (strBytes ", "), op.uint8] := by decide
example : create_program (strBytes "%x") = none := by decide
example : create_program (strBytes "ab%") = none := by decide
example : uint8_record 0 = [3, 0, 0, 48] := by decide
example : uint8_record 42 = [2, 0, 52, 50] := by decide
example : uint8_record 255 = [1, 50, 53, 53] := by decide

/-- Setting inside a replicated list splices the new element in place. -/
theorem set_replicate_splice {α : Type} (m i : Nat) (a x : α) (h : i < m) :
    (List.replicate m a).set i x =
      List.replicate i a ++ x :: List.replicate (m - i - 1) a := by
  rw [List.set_eq_take_cons_drop _ (by simpa using h), List.take_replicate,
    List.drop_replicate, Nat.min_eq_left (Nat.le_of_lt h)]
  congr 3

/-- Setting past a left factor only touches the right factor. -/
theorem set_append_right_len {α : Type} (l₁ l₂ : List α) (k : Nat) (x : α) :
    (l₁ ++ l₂).set (l₁.length + k) x = l₁ ++ l₂.set k x := by
  rw [List.set_append]
  simp

/-- Setting before the split point only touches the left factor. -/
theorem set_append_left_len {α : Type} (l₁ l₂ : List α) (k : Nat) (x : α)
    (h : k < l₁.length) :
    (l₁ ++ l₂).set k x = l₁.set k x ++ l₂ := by
  rw [List.set_append, if_pos h]

/-- Setting the position just past `A ++ B`, at the head of a trailing
replicated block, turns that head into the new element. -/
theorem set_between {α : Type} (A B : List α) (m : Nat) (a x : α)
    (j : Nat) (hm : 0 < m) (hj : j = A.length + B.length) :
    (A ++ B ++ List.replicate m a).set j x =
      A ++ (B ++ [x]) ++ List.replicate (m - 1) a := by
  subst hj
  obtain ⟨k, rfl⟩ : ∃ k, m = k + 1 := ⟨m - 1, by omega⟩
  rw [List.set_append, if_neg (by simp)]
  simp [List.replicate_succ, List.append_assoc]

/-- Setting an interior position of a replicated middle block splices the
new element into that block. -/
theorem set_in_replicate {α : Type} (A C : List α) (m i : Nat) (a x : α)
    (j : Nat) (h : i < m) (hj : j = A.length + i) :
    (A ++ List.replicate m a ++ C).set j x =
      A ++ (List.replicate i a ++ x :: List.replicate (m - i - 1) a) ++ C := by
  subst hj
  rw [List.append_assoc, List.set_append, if_neg (by omega),
    Nat.add_sub_cancel_left, List.set_append, if_pos (by simpa using h),
    set_replicate_splice m i a x h]
  simp [List.append_assoc]

/-- Setting an interior position of a trailing replicated block splices
the new element into that block. -/
theorem set_in_replicate_last {α : Type} (A : List α) (m i : Nat) (a x : α)
    (j : Nat) (h : i < m) (hj : j = A.length + i) :
    (A ++ List.replicate m a).set j x =
      A ++ (List.replicate i a ++ x :: List.replicate (m - i - 1) a) := by
  subst hj
  rw [List.set_append, if_neg (by omega), Nat.add_sub_cancel_left,
    set_replicate_splice m i a x h]

/-- The row-1 fill loop of the parse-table generator after `n` steps:
the first `n` character entries of row 1 are TEXT, the rest of the table
still zero-initialised. -/
theorem parse_fold_fill (e inv : parse_table_element) : ∀ n, n ≤ 128 →
    (List.range n).foldl (fun t i => t.set (1 * 129 + i) e)
        (List.replicate (129 * 3) inv) =
      List.replicate 129 inv ++ List.replicate n e ++
        List.replicate (258 - n) inv := by
  intro n
  induction n with
  | zero =>
    intro _
    rw [List.range_zero, List.foldl_nil, List.replicate_zero,
      List.append_nil, ← List.replicate_add]
  | succ n ih =>
    intro h
    rw [List.range_succ, List.foldl_append, List.foldl_cons, List.foldl_nil,
      ih (by omega)]
    rw [set_between _ _ _ _ _ _ (by omega : 0 < 258 - n)
      (by simp only [List.length_replicate])]
    rw [← List.replicate_succ']
    have hcnt : 258 - n - 1 = 258 - (n + 1) := by omega
    rw [hcnt]

/-- The blueprint parse table laid out explicitly, proved by tracing the
generator's fill loop and its three point updates. -/
theorem blueprint_parse_table_eq :
    blueprint_parse_table = parse_table_spliced := by
  show ((((List.range 128).foldl
        (fun t i => t.set (1 * 129 + i) ⟨1, op_type_t.TEXT⟩)
        (List.replicate (129 * 3) ⟨0, op_type_t.INVALID⟩)).set
          (1 * 129 + 37) ⟨2, op_type_t.NOOP⟩).set
          (2 * 129 + 117) ⟨1, op_type_t.UINT8⟩).set
          (1 * 129 + 128) ⟨0, op_type_t.EOFOP⟩ = parse_table_spliced
  rw [parse_fold_fill _ _ 128 le_rfl]
  rw [set_in_replicate _ _ _ 37 _ _ _ (by omega)
    (by simp only [List.length_replicate])]
  rw [set_in_replicate_last _ _ 118 _ _ _ (by omega)
    (by simp only [List.length_append, List.length_replicate,
      List.length_cons])]
  rw [← List.append_assoc]
  rw [set_in_replicate _ _ _ 0 _ _ _ (by omega)
    (by simp only [List.length_append, List.length_replicate,
      List.length_cons])]
  norm_num [parse_table_spliced, List.append_assoc]

/-- The digit loop never changes the length of the table it writes into. -/
theorem wdl_length : ∀ (fuel v b t : Nat) (res : List Nat),
    (write_digit_loop fuel v b t res).2.length = res.length := by
  intro fuel
  induction fuel with
  | zero => intro v b t res; rfl
  | succ f ih =>
    intro v b t res
    simp only [write_digit_loop]
    by_cases h : v / 10 = 0
    · rw [if_pos h]
      simp
    · rw [if_neg h, ih]
      simp

/-- The digit loop writes relative to its true index: a prefix before the
record is untouched. -/
theorem wdl_shift : ∀ (fuel v b : Nat) (pre res : List Nat) (t : Nat),
    write_digit_loop fuel v b (pre.length + t) (pre ++ res) =
      ((write_digit_loop fuel v b t res).1,
        pre ++ (write_digit_loop fuel v b t res).2) := by
  intro fuel
  induction fuel with
  | zero => intro v b pre res t; rfl
  | succ f ih =>
    intro v b pre res t
    have hset : (pre ++ res).set (pre.length + t + (b - 1)) (v % 10 + 48)
        = pre ++ res.set (t + (b - 1)) (v % 10 + 48) := by
      rw [Nat.add_assoc, set_append_right_len]
    simp only [write_digit_loop]
    rw [hset]
    by_cases h : v / 10 = 0
    · rw [if_pos h, if_pos h]
    · rw [if_neg h, if_neg h, ih]

/-- The digit loop writes only inside the record it is pointed at: a
suffix after the record is untouched. -/
theorem wdl_local : ∀ (fuel v b : Nat) (res post : List Nat),
    b ≤ res.length → 1 ≤ res.length →
    write_digit_loop fuel v b 0 (res ++ post) =
      ((write_digit_loop fuel v b 0 res).1,
        (write_digit_loop fuel v b 0 res).2 ++ post) := by
  intro fuel
  induction fuel with
  | zero => intro v b res post _ _; rfl
  | succ f ih =>
    intro v b res post hb h1
    have hidx : 0 + (b - 1) < res.length := by omega
    have hset : (res ++ post).set (0 + (b - 1)) (v % 10 + 48)
        = res.set (0 + (b - 1)) (v % 10 + 48) ++ post :=
      set_append_left_len _ _ _ _ hidx
    simp only [write_digit_loop]
    rw [hset]
    by_cases h : v / 10 = 0
    · rw [if_pos h, if_pos h]
    · rw [if_neg h, if_neg h, ih]
      · rw [List.length_set]; omega
      · rw [List.length_set]; omega

theorem uint8_record_length_all (i : Nat) : (uint8_record i).length = 4 := by
  show ((write_digit_loop 4 i 4 0 [0, 0, 0, 0]).2.set 0
    (write_digit_loop 4 i 4 0 [0, 0, 0, 0]).1).length = 4
  rw [List.length_set, wdl_length]
  rfl

/-- Length of a concatenation of 4-byte records. -/
theorem records_flatten_length (l : List Nat) :
    ((l.map uint8_record).flatten).length = 4 * l.length := by
  induction l with
  | nil => rfl
  | cons a t ih =>
    rw [List.map_cons, List.flatten_cons, List.length_append, ih,
      uint8_record_length_all, List.length_cons]
    ring

/-- One step of the table generator on a well-formed intermediate state:
with the first `n` records already produced and the rest of the table
zeroed, the step writes exactly the record of `n`. -/
theorem body_step (n : Nat) (D rest : List Nat) (hD : D.length = 4 * n) :
    (write_digit_loop 4 n 4 (4 * n) (D ++ ([0, 0, 0, 0] ++ rest))).2.set (4 * n)
        (write_digit_loop 4 n 4 (4 * n) (D ++ ([0, 0, 0, 0] ++ rest))).1
      = D ++ (uint8_record n ++ rest) := by
  rw [show 4 * n = D.length + 0 by omega]
  rw [wdl_shift]
  show (D ++ (write_digit_loop 4 n 4 0 ([0, 0, 0, 0] ++ rest)).2).set
      (D.length + 0) (write_digit_loop 4 n 4 0 ([0, 0, 0, 0] ++ rest)).1
    = D ++ (uint8_record n ++ rest)
  rw [wdl_local 4 n 4 [0, 0, 0, 0] rest (by norm_num) (by norm_num)]
  show (D ++ ((write_digit_loop 4 n 4 0 [0, 0, 0, 0]).2 ++ rest)).set
      (D.length + 0) (write_digit_loop 4 n 4 0 [0, 0, 0, 0]).1
    = D ++ (uint8_record n ++ rest)
  rw [set_append_right_len]
  rw [set_append_left_len _ _ _ _ (by rw [wdl_length]; norm_num)]
  rfl

/-- After `n` steps, the table generator has produced the first `n`
records, the rest of the table still zeroed. -/
theorem uint8_fold_inv : ∀ n, n ≤ 256 →
    (List.range n).foldl
      (fun res i =>
        let p := write_digit_loop 4 i 4 (4 * i) res
        p.2.set (4 * i) p.1)
      (List.replicate (256 * 4) 0)
    = ((List.range n).map uint8_record).flatten ++
        List.replicate ((256 - n) * 4) 0 := by
  intro n
  induction n with
  | zero => intro _; rfl
  | succ n ih =>
    intro h
    rw [List.range_succ, List.foldl_append, List.foldl_cons, List.foldl_nil,
      ih (by omega)]
    simp only []
    have hdone : (((List.range n).map uint8_record).flatten).length = 4 * n := by
      rw [records_flatten_length, List.length_range]
    have htodo : List.replicate ((256 - n) * 4) (0 : Nat) =
        [0, 0, 0, 0] ++ List.replicate ((255 - n) * 4) 0 := by
      have hc : (256 - n) * 4 = 4 + (255 - n) * 4 := by omega
      rw [hc, List.replicate_add]
      rfl
    rw [htodo, body_step n _ _ hdone]
    rw [List.map_append, List.flatten_append]
    simp only [List.map_cons, List.map_nil, List.flatten_cons,
      List.flatten_nil, List.append_nil]
    rw [show (255 - n) * 4 = (256 - (n + 1)) * 4 by omega]
    simp [List.append_assoc]

/-- The decimal lookup table is the concatenation of the 256 per-value
records, proved by tracing the generator's fold. -/
theorem uint8_table_records :
    uint8_string_lookup_list = ((List.range 256).map uint8_record).flatten := by
  show generate_uint8_string_lookup_list = _
  rw [generate_uint8_string_lookup_list, uint8_fold_inv 256 le_rfl]
  simp

/-- Row-1 entries of the spliced parse table, over the 129-symbol alphabet
(128 characters plus the end-of-input column 128). -/
theorem spliced_row1 : ∀ c : Fin 129,
    parse_table_spliced.getD (129 + c.val) ⟨0, op_type_t.INVALID⟩ =
      (if c.val = 37 then ⟨2, op_type_t.NOOP⟩
       else if c.val = 128 then ⟨0, op_type_t.EOFOP⟩
       else ⟨1, op_type_t.TEXT⟩) := by
  decide

/-- Row-2 entries of the spliced parse table. -/
theorem spliced_row2 : ∀ c : Fin 129,
    parse_table_spliced.getD (258 + c.val) ⟨0, op_type_t.INVALID⟩ =
      (if c.val = 117 then ⟨1, op_type_t.UINT8⟩
       else ⟨0, op_type_t.INVALID⟩) := by
  decide

/-- Row-1 lookups of the built parse table agree with the automaton the
spec describes: `%` is NOOP to state 2, end-of-input is EOFOP, everything
else is TEXT looping on state 1. -/
theorem parse_entry_row1 (c : Nat) (hc : c ≤ 128) :
    blueprint_parse_entry 1 c =
      (if c = 37 then ⟨2, op_type_t.NOOP⟩
       else if c = 128 then ⟨0, op_type_t.EOFOP⟩
       else ⟨1, op_type_t.TEXT⟩) := by
  have h := spliced_row1 ⟨c, by omega⟩
  simpa [blueprint_parse_entry, blueprint_parse_table_eq,
    show 1 * 129 + c = 129 + c by ring] using h

/-- Row-2 lookups of the built parse table: only `u` is accepted after a
`%`; every other byte (and end-of-input) is INVALID. -/
theorem parse_entry_row2 (c : Nat) (hc : c ≤ 128) :
    blueprint_parse_entry 2 c =
      (if c = 117 then ⟨1, op_type_t.UINT8⟩
       else ⟨0, op_type_t.INVALID⟩) := by
  have h := spliced_row2 ⟨c, by omega⟩
  simpa [blueprint_parse_entry, blueprint_parse_table_eq,
    show 2 * 129 + c = 258 + c by ring] using h

/-- Row-0 entries of the spliced parse table: the unused state 0 keeps
its zero initialisation. -/
theorem spliced_row0 : ∀ c : Fin 129,
    parse_table_spliced.getD c.val ⟨0, op_type_t.INVALID⟩ =
      ⟨0, op_type_t.INVALID⟩ := by
  decide

/-- A 7-bit byte selects the same entry as its plain column lookup. -/
theorem byte_entry_low (state c : Nat) (hc : c < 128) :
    blueprint_parse_byte_entry state c = blueprint_parse_entry state c := by
  rw [blueprint_parse_byte_entry, blueprint_parse_entry, signed_table_index,
    if_pos hc]

/-- A high byte in state 1 aliases into row 0 of the table and reads
INVALID (index `129 + c - 256 = c - 127`, between 1 and 128). -/
theorem byte_entry_state1_high (c : Nat) (h1 : 128 ≤ c) (h2 : c ≤ 255) :
    blueprint_parse_byte_entry 1 c = ⟨0, op_type_t.INVALID⟩ := by
  have hi : signed_table_index 1 c = c - 127 := by
    rw [signed_table_index, if_neg (by omega)]
    omega
  rw [blueprint_parse_byte_entry, hi, blueprint_parse_table_eq]
  have h := spliced_row0 ⟨c - 127, by omega⟩
  simpa using h

/-- A high byte in state 2 aliases into row 1 of the table at column
`c - 127` (index `258 + c - 256`): byte 164 hits the NOOP cell of `%`,
byte 255 hits the EOFOP cell, every other high byte reads TEXT. -/
theorem byte_entry_state2_high (c : Nat) (h1 : 128 ≤ c) (h2 : c ≤ 255) :
    blueprint_parse_byte_entry 2 c =
      (if c = 164 then ⟨2, op_type_t.NOOP⟩
       else if c = 255 then ⟨0, op_type_t.EOFOP⟩
       else ⟨1, op_type_t.TEXT⟩) := by
  have hi : signed_table_index 2 c = 129 + (c - 127) := by
    rw [signed_table_index, if_neg (by omega)]
    omega
  rw [blueprint_parse_byte_entry, hi, blueprint_parse_table_eq]
  have h := spliced_row1 ⟨c - 127, by omega⟩
  simp only at h
  rw [h]
  split_ifs <;> first | rfl | omega

/-- Relation between `getD` and `drop`: reading index n is reading the
head after dropping n elements. -/
theorem getD_eq_drop_headD (l : List Nat) (n : Nat) (d : Nat) :
    l.getD n d = (l.drop n).headD d := by
  induction l generalizing n with
  | nil => simp
  | cons x xs ih =>
    cases n with
    | zero => simp
    | succ n => simpa using ih n

/-- Head of an append with a non-empty left part. -/
theorem headD_append_ne_nil (l l' : List Nat) (d : Nat) (h : l ≠ []) :
    (l ++ l').headD d = l.headD d := by
  cases l with
  | nil => simp at h
  | cons x xs => simp

/-- Dropping into a concatenation of fixed-size 4-byte blocks lands inside
block v, followed by the remaining blocks. -/
theorem flatten_blocks_drop : ∀ (R : List (List Nat)) (v k : Nat),
    (∀ r ∈ R, r.length = 4) → k ≤ 4 → ∀ h : v < R.length,
    R.flatten.drop (4 * v + k) =
      (R.get ⟨v, h⟩).drop k ++ (R.drop (v + 1)).flatten := by
  intro R
  induction R with
  | nil => intro v k _ _ h; simp at h
  | cons r R ih =>
    intro v k hlen hk h
    cases v with
    | zero =>
      have hr : r.length = 4 := hlen r (by simp)
      simp only [List.flatten_cons, Nat.mul_zero, Nat.zero_add]
      rw [List.drop_append_of_le_length (by omega)]
      simp
    | succ v =>
      have hr : r.length = 4 := hlen r (by simp)
      have h4 : 4 * (v + 1) + k = r.length + (4 * v + k) := by omega
      simp only [List.flatten_cons, h4, List.drop_append]
      have := ih v k (fun r hrr => hlen r (by simp [hrr])) hk (by simpa using h)
      simpa using this

/-- A window of at most 4 bytes starting inside block v of a concatenation
of 4-byte blocks reads from block v alone. -/
theorem flatten_blocks_window (R : List (List Nat)) (v k m : Nat)
    (hlen : ∀ r ∈ R, r.length = 4) (hk : k + m ≤ 4) (h : v < R.length) :
    (R.flatten.drop (4 * v + k)).take m = ((R.get ⟨v, h⟩).drop k).take m := by
  rw [flatten_blocks_drop R v k hlen (by omega) h]
  have hg : (R.get ⟨v, h⟩).length = 4 := hlen _ (R.get_mem _ _)
  have hl : m ≤ ((R.get ⟨v, h⟩).drop k).length := by
    rw [List.length_drop, hg]; omega
  rw [List.take_append_of_le_length hl]

/-- Reading one byte inside block v of a concatenation of 4-byte blocks
reads from block v alone. -/
theorem flatten_blocks_getD (R : List (List Nat)) (v k : Nat)
    (hlen : ∀ r ∈ R, r.length = 4) (hk : k < 4) (h : v < R.length) :
    R.flatten.getD (4 * v + k) 0 = (R.get ⟨v, h⟩).getD k 0 := by
  have hg : (R.get ⟨v, h⟩).length = 4 := hlen _ (R.get_mem _ _)
  have hne : (R.get ⟨v, h⟩).drop k ≠ [] := by
    intro hcon
    have hc := congrArg List.length hcon
    rw [List.length_drop, hg] at hc
    simp at hc
    omega
  rw [getD_eq_drop_headD, flatten_blocks_drop R v k hlen (by omega) h,
    headD_append_ne_nil _ _ _ hne, ← getD_eq_drop_headD]

/-- Shape of each 4-byte record of the decimal table: the count byte
`4 - digits` followed by the digits right-justified in the three data
slots (zero-filled in front). Checked for all 256 byte values. -/
theorem uint8_record_struct : ∀ v : Fin 256,
    uint8_record v.val =
      (4 - (decRepr v.val).length) ::
        (List.replicate (3 - (decRepr v.val).length) 0 ++ decRepr v.val) ∧
      1 ≤ (decRepr v.val).length ∧ (decRepr v.val).length ≤ 3 := by
  decide

theorem uint8_record_len : ∀ v : Fin 256, (uint8_record v.val).length = 4 := by
  decide

theorem records_len : ∀ r ∈ (List.range 256).map uint8_record, r.length = 4 := by
  intro r hr
  rcases List.mem_map.mp hr with ⟨i, hi, rfl⟩
  exact uint8_record_len ⟨i, List.mem_range.mp hi⟩

theorem records_get (v : Nat) (hv : v < 256) :
    ((List.range 256).map uint8_record).get
      ⟨v, by simpa using hv⟩ = uint8_record v := by
  simp [List.get_eq_getElem]

/-- The emitted text of `output_uint8` is exactly the decimal
representation of the byte value. -/
theorem output_uint8_decimal (v : Nat) (hv : v < 256) :
    output_uint8 v = decRepr v := by
  obtain ⟨hrec0, hlen10, hlen30⟩ := uint8_record_struct ⟨v, hv⟩
  have hrec : uint8_record v =
      (4 - (decRepr v).length) ::
        (List.replicate (3 - (decRepr v).length) 0 ++ decRepr v) := hrec0
  have hlen1 : 1 ≤ (decRepr v).length := hlen10
  have hlen3 : (decRepr v).length ≤ 3 := hlen30
  have hv' : v < ((List.range 256).map uint8_record).length := by simpa using hv
  have hblank : uint8_string_lookup_list.getD (v * 4) 0 = 4 - (decRepr v).length := by
    rw [uint8_table_records, show v * 4 = 4 * v + 0 by ring,
      flatten_blocks_getD _ v 0 records_len (by omega) hv']
    rw [records_get v hv, hrec]
    simp
  simp only [output_uint8]
  rw [hblank]
  rw [uint8_table_records,
    show v * 4 + (4 - (decRepr v).length) = 4 * v + (4 - (decRepr v).length) by ring]
  rw [flatten_blocks_window _ v (4 - (decRepr v).length)
    (4 - (4 - (decRepr v).length)) records_len (by omega) hv']
  rw [records_get v hv, hrec]
  have h1 : 4 - (decRepr v).length = (3 - (decRepr v).length) + 1 := by omega
  have h2 : 4 - (4 - (decRepr v).length) = (decRepr v).length := by omega
  have h3 : List.drop (4 - (decRepr v).length)
      ((4 - (decRepr v).length) ::
        (List.replicate (3 - (decRepr v).length) 0 ++ decRepr v)) = decRepr v := by
    rw [h1, List.drop_succ_cons, List.drop_left' (by simp)]
  rw [h3, h2, List.take_length]

/-- Decimal representations of byte values carry no leading zero; the
value zero itself is the single digit "0". -/
theorem decRepr_no_leading_zero : ∀ v : Fin 256,
    (decRepr v.val).headD 0 ≠ 48 ∨ decRepr v.val = [48] := by
  decide

/-- C2: for every byte value v in [0,255] the placeholder emitter outputs
the ASCII decimal representation of v with no leading zero (0 emits "0"),
via the precomputed 256-entry table of four bytes per value: the first
byte of the record of v counts the leading blank (non-digit) slots of the
record, the remaining three bytes hold the right-justified ASCII digits,
and the emission copies the `4 - leading_blanks` tail bytes of the record
starting at offset `leading_blanks`. -/
theorem claim_C2_decimal_encoding : ∀ v : Fin 256,
    output_uint8 v.val = decRepr v.val ∧
    uint8_string_lookup_list.getD (4 * v.val) 0 = 4 - (decRepr v.val).length ∧
    (uint8_string_lookup_list.drop (4 * v.val + 1)).take 3 =
      List.replicate (3 - (decRepr v.val).length) 0 ++ decRepr v.val ∧
    ((decRepr v.val).headD 0 ≠ 48 ∨ decRepr v.val = [48]) := by
  intro v
  obtain ⟨hrec0, hlen10, hlen30⟩ := uint8_record_struct v
  have hrec : uint8_record v.val =
      (4 - (decRepr v.val).length) ::
        (List.replicate (3 - (decRepr v.val).length) 0 ++ decRepr v.val) := hrec0
  have hlen3 : (decRepr v.val).length ≤ 3 := hlen30
  have hv' : v.val < ((List.range 256).map uint8_record).length := by
    simpa using v.isLt
  refine ⟨output_uint8_decimal v.val v.isLt, ?_, ?_, decRepr_no_leading_zero v⟩
  · rw [uint8_table_records, show 4 * v.val = 4 * v.val + 0 by ring,
      flatten_blocks_getD _ v.val 0 records_len (by omega) hv',
      records_get v.val v.isLt, hrec]
    simp
  · rw [uint8_table_records,
      flatten_blocks_window _ v.val 1 3 records_len (by omega) hv',
      records_get v.val v.isLt, hrec]
    simp only [List.drop_succ_cons, List.drop_zero]
    have h3 : (List.replicate (3 - (decRepr v.val).length) 0 ++ decRepr v.val).length = 3 := by
      simp
      omega
    exact List.take_of_length_le (le_of_eq h3)

/-- Automaton step: `%` in state 1 flushes the pending literal span and
enters state 2. -/
theorem cp_aux_state1_percent (acc rest : List Nat) :
    create_program_aux 1 acc (37 :: rest) =
      (create_program_aux 2 [] rest).map (fun l => flush_text acc ++ l) := by
  simp [create_program_aux, byte_entry_low 1 37 (by omega),
    parse_entry_row1 37 (by omega)]

/-- Automaton step: a 7-bit byte other than `%` in state 1 extends the
current literal span. -/
theorem cp_aux_state1_text (c : Nat) (hc : c < 128) (hne : c ≠ 37)
    (acc rest : List Nat) :
    create_program_aux 1 acc (c :: rest) =
      create_program_aux 1 (acc ++ [c]) rest := by
  simp [create_program_aux, byte_entry_low 1 c hc,
    parse_entry_row1 c (by omega), hne, show c ≠ 128 by omega]

/-- A high byte in state 1 fails compilation: the signed-char index lands
in row 0 of the table, which is all INVALID. -/
theorem cp_aux_state1_big (c : Nat) (hc : 128 ≤ c) (hc2 : c ≤ 255)
    (acc rest : List Nat) :
    create_program_aux 1 acc (c :: rest) = none := by
  simp [create_program_aux, byte_entry_state1_high c hc hc2]

/-- Automaton step: `u` in state 2 emits a placeholder operation and
returns to state 1. -/
theorem cp_aux_state2_u (acc rest : List Nat) :
    create_program_aux 2 acc (117 :: rest) =
      (create_program_aux 1 [] rest).map (fun l => op.uint8 :: l) := by
  simp [create_program_aux, byte_entry_low 2 117 (by omega),
    parse_entry_row2 117 (by omega)]

/-- Automaton step: a 7-bit byte other than `u` in state 2 fails
compilation. -/
theorem cp_aux_state2_other (c : Nat) (hc : c < 128) (hne : c ≠ 117)
    (acc rest : List Nat) :
    create_program_aux 2 acc (c :: rest) = none := by
  simp [create_program_aux, byte_entry_low 2 c hc,
    parse_entry_row2 c (by omega), hne]

/-- A high byte other than 164 and 255 in state 2 aliases onto a TEXT
cell of row 1: it extends the literal span and moves to state 1, exactly
as a literal byte in state 1 would. -/
theorem cp_aux_state2_high_text (c : Nat) (h1 : 128 ≤ c) (h2 : c ≤ 255)
    (hne1 : c ≠ 164) (hne2 : c ≠ 255) (acc rest : List Nat) :
    create_program_aux 2 acc (c :: rest) =
      create_program_aux 1 (acc ++ [c]) rest := by
  simp [create_program_aux, byte_entry_state2_high c h1 h2, hne1, hne2]

/-- Byte 164 in state 2 aliases onto the NOOP cell of `%`: it flushes the
(empty) pending span and stays in state 2. -/
theorem cp_aux_state2_high_noop (acc rest : List Nat) :
    create_program_aux 2 acc (164 :: rest) =
      (create_program_aux 2 [] rest).map (fun l => flush_text acc ++ l) := by
  simp [create_program_aux, byte_entry_state2_high 164 (by omega) (by omega)]

/-- Byte 255 in state 2 aliases onto the EOFOP cell, which the source's
switch does not handle: the byte is skipped, the state stays 2, and an
open span would keep the byte (spans are blueprint slices). -/
theorem cp_aux_state2_skip (acc rest : List Nat) :
    create_program_aux 2 acc (255 :: rest) =
      create_program_aux 2 (if acc = [] then [] else acc ++ [255]) rest := by
  simp [create_program_aux, byte_entry_state2_high 255 (by omega) (by omega)]

/-- Automaton end: end-of-input in state 1 flushes any pending literal
span. -/
theorem cp_aux_state1_nil (acc : List Nat) :
    create_program_aux 1 acc [] = some (flush_text acc) := by
  simp [create_program_aux, parse_entry_row1 128 (by omega)]

/-- Automaton end: end-of-input in state 2 fails compilation. -/
theorem cp_aux_state2_nil (acc : List Nat) :
    create_program_aux 2 acc [] = none := by
  simp [create_program_aux, parse_entry_row2 128 (by omega)]

theorem no_adjacent_text_uint8 (l : List op) :
    no_adjacent_text (op.uint8 :: l) = no_adjacent_text l := rfl

theorem no_adjacent_text_flush_uint8 (acc : List Nat) (l : List op) :
    no_adjacent_text (flush_text acc ++ op.uint8 :: l) = no_adjacent_text l := by
  by_cases h : acc = [] <;> simp [flush_text, h] <;> rfl

theorem texts_nonempty_flush (acc : List Nat) (l : List op) :
    texts_nonempty (flush_text acc ++ l) = texts_nonempty l := by
  by_cases h : acc = []
  · simp [flush_text, h]
  · simp [flush_text, h, texts_nonempty, List.isEmpty_iff]

theorem texts_nonempty_uint8 (l : List op) :
    texts_nonempty (op.uint8 :: l) = texts_nonempty l := rfl

theorem count_uint8_flush (acc : List Nat) (l : List op) :
    count_uint8_ops (flush_text acc ++ l) = count_uint8_ops l := by
  by_cases h : acc = [] <;> simp [flush_text, h, count_uint8_ops]

theorem count_percent_u_pair (rest : List Nat) :
    count_percent_u (37 :: 117 :: rest) = count_percent_u rest + 1 := by
  simp [count_percent_u]

theorem count_percent_u_other (c : Nat) (hne : c ≠ 37) (rest : List Nat) :
    count_percent_u (c :: rest) = count_percent_u rest := by
  cases rest with
  | nil => simp [count_percent_u]
  | cons c' rest' => simp [count_percent_u, hne]

/-- Structural invariants of compilation over 7-bit blueprints, proved by
strong induction on the blueprint: a state-1 parse yields a program with
coalesced non-empty text and one placeholder per `%u`; a state-2 parse
can only proceed through a `u` and prepends exactly one placeholder. The
7-bit bound is necessary: blueprints holding bytes above 127 can compile
through the signed-char aliasing with both invariants broken. -/
theorem cp_invariant : ∀ n bp, List.length bp ≤ n → (∀ b ∈ bp, b < 128) →
    (∀ acc l, create_program_aux 1 acc bp = some l →
      no_adjacent_text l = true ∧ texts_nonempty l = true ∧
      count_uint8_ops l = count_percent_u bp) ∧
    (∀ acc l, create_program_aux 2 acc bp = some l →
      ∃ rest l', bp = 117 :: rest ∧ create_program_aux 1 [] rest = some l' ∧
        l = op.uint8 :: l') := by
  intro n
  induction n with
  | zero =>
    intro bp hbp _
    have hnil : bp = [] := List.length_eq_zero.mp (Nat.le_zero.mp hbp)
    subst hnil
    constructor
    · intro acc l hl
      rw [cp_aux_state1_nil] at hl
      obtain rfl : flush_text acc = l := Option.some.inj hl
      by_cases h : acc = [] <;>
        simp [flush_text, h, no_adjacent_text, texts_nonempty, count_uint8_ops,
          count_percent_u, List.isEmpty_iff]
    · intro acc l hl
      rw [cp_aux_state2_nil] at hl
      exact absurd hl (by simp)
  | succ n ih =>
    intro bp hbp hbytes
    cases bp with
    | nil =>
      constructor
      · intro acc l hl
        rw [cp_aux_state1_nil] at hl
        obtain rfl : flush_text acc = l := Option.some.inj hl
        by_cases h : acc = [] <;>
          simp [flush_text, h, no_adjacent_text, texts_nonempty, count_uint8_ops,
            count_percent_u, List.isEmpty_iff]
      · intro acc l hl
        rw [cp_aux_state2_nil] at hl
        exact absurd hl (by simp)
    | cons c rest =>
      have hrest : rest.length ≤ n := by simpa using hbp
      have hc : c < 128 := hbytes c (List.mem_cons_self c rest)
      have hlow : ∀ b ∈ rest, b < 128 :=
        fun b hb => hbytes b (List.mem_cons_of_mem c hb)
      constructor
      · intro acc l hl
        by_cases h37 : c = 37
        · subst h37
          rw [cp_aux_state1_percent] at hl
          rcases Option.map_eq_some'.mp hl with ⟨l2, hl2, rfl⟩
          rcases (ih rest hrest hlow).2 [] l2 hl2 with ⟨rest', l', hr, hl', rfl⟩
          subst hr
          have hrest' : rest'.length ≤ n := by
            have := hrest; simp at this; omega
          have hlow' : ∀ b ∈ rest', b < 128 :=
            fun b hb => hlow b (List.mem_cons_of_mem 117 hb)
          obtain ⟨hnat, hne, hcount⟩ := (ih rest' hrest' hlow').1 [] l' hl'
          refine ⟨?_, ?_, ?_⟩
          · rw [no_adjacent_text_flush_uint8]; exact hnat
          · rw [texts_nonempty_flush, texts_nonempty_uint8]; exact hne
          · rw [count_uint8_flush, count_percent_u_pair]
            simp [count_uint8_ops, hcount]
        · rw [cp_aux_state1_text c hc h37] at hl
          obtain ⟨hnat, hne, hcount⟩ := (ih rest hrest hlow).1 (acc ++ [c]) l hl
          exact ⟨hnat, hne, by rw [count_percent_u_other c h37]; exact hcount⟩
      · intro acc l hl
        by_cases h117 : c = 117
        · subst h117
          rw [cp_aux_state2_u] at hl
          rcases Option.map_eq_some'.mp hl with ⟨l2, hl2, rfl⟩
          exact ⟨rest, l2, rfl, hl2, rfl⟩
        · rw [cp_aux_state2_other c hc h117] at hl
          exact absurd hl (by simp)

/-- The chunked pattern generator concatenates K copies of the single
pattern. -/
theorem generate_chunked_flatten (single : List Nat) : ∀ k : Nat,
    generate_chunked_printf_pattern single k = (List.replicate k single).flatten := by
  intro k
  induction k with
  | zero => rfl
  | succ k ih =>
    rw [generate_chunked_printf_pattern, List.range_succ, List.foldl_append]
    rw [show (List.range k).foldl (fun result _ => result ++ single) []
      = generate_chunked_printf_pattern single k from rfl, ih]
    simp [List.replicate_succ']

/-- Compiling one leading `", %u"` unit produces one text and one
placeholder operation in front of the rest. -/
theorem cp_aux_single_unit (rest : List Nat) :
    create_program_aux 1 [] (44 :: 32 :: 37 :: 117 :: rest) =
      (create_program_aux 1 [] rest).map
        (fun l => op.text [44, 32] :: op.uint8 :: l) := by
  rw [cp_aux_state1_text 44 (by omega) (by omega),
    cp_aux_state1_text 32 (by omega) (by omega)]
  rw [show ([] : List Nat) ++ [44] ++ [32] = [44, 32] from rfl]
  rw [cp_aux_state1_percent, cp_aux_state2_u]
  cases h : create_program_aux 1 [] rest <;> simp [flush_text]

theorem cp_chunk : ∀ n : Nat,
    create_program_aux 1 [] ((List.replicate n (strBytes ", %u")).flatten) =
      some ((List.replicate n [op.text [44, 32], op.uint8]).flatten) := by
  intro n
  induction n with
  | zero => exact cp_aux_state1_nil []
  | succ n ih =>
    rw [List.replicate_succ, List.flatten_cons]
    rw [show strBytes ", %u" ++ (List.replicate n (strBytes ", %u")).flatten
      = 44 :: 32 :: 37 :: 117 :: (List.replicate n (strBytes ", %u")).flatten from rfl]
    rw [cp_aux_single_unit, ih]
    rfl

theorem create_program_chunked :
    create_program printf_pattern =
      some ((List.replicate 32 [op.text [44, 32], op.uint8]).flatten) := by
  rw [printf_pattern, generate_chunked_flatten, create_program,
    show single_printf_pattern = strBytes ", %u" from rfl]
  exact cp_chunk 32

theorem chunked_program_val :
    chunked_program = (List.replicate 32 [op.text [44, 32], op.uint8]).flatten := by
  rw [chunked_program, create_program_chunked]
  rfl

theorem create_program_initial :
    create_program initial_printf_pattern = some [op.uint8] := by decide

theorem initial_program_val : initial_program = [op.uint8] := by
  rw [initial_program, create_program_initial]
  rfl

theorem create_program_single :
    create_program single_printf_pattern =
      some [op.text [44, 32], op.uint8] := by decide

theorem single_program_val :
    single_program = [op.text [44, 32], op.uint8] := by
  rw [single_program, create_program_single]
  rfl

/-- C4 (corrected): the compile-time format compiler is the two-state
table automaton of the claim only on the 7-bit alphabet; byte values
128..255 index the parse table through the target's signed `char` and
alias into other rows. The full transition table over all byte values is:
`%` in state 1 flushes any pending literal span and enters state 2; `u`
in state 2 emits a Uint8Placeholder and returns to state 1; any other
7-bit byte in state 1 extends the current literal span; a high byte in
state 1 fails compilation (row 0 is INVALID); any other 7-bit byte in
state 2 fails compilation; a high byte other than 164 and 255 in state 2
extends the literal span and moves to state 1 (row-1 TEXT cell); byte 164
in state 2 flushes the pending span and stays in state 2 (the aliased
NOOP cell of `%`); byte 255 in state 2 is silently skipped (the aliased
EOFOP cell has no case in the source's switch); end-of-input in state 2
fails compilation; end-of-input in state 1 flushes any pending literal
span. -/
theorem claim_C4_automaton :
    (∀ acc rest, create_program_aux 1 acc (37 :: rest) =
      (create_program_aux 2 [] rest).map (fun l => flush_text acc ++ l)) ∧
    (∀ acc rest, create_program_aux 2 acc (117 :: rest) =
      (create_program_aux 1 [] rest).map (fun l => op.uint8 :: l)) ∧
    (∀ c, c < 128 → c ≠ 37 → ∀ acc rest,
      create_program_aux 1 acc (c :: rest) =
        create_program_aux 1 (acc ++ [c]) rest) ∧
    (∀ c, 128 ≤ c → c ≤ 255 → ∀ acc rest,
      create_program_aux 1 acc (c :: rest) = none) ∧
    (∀ c, c < 128 → c ≠ 117 → ∀ acc rest,
      create_program_aux 2 acc (c :: rest) = none) ∧
    (∀ c, 128 ≤ c → c ≤ 255 → c ≠ 164 → c ≠ 255 → ∀ acc rest,
      create_program_aux 2 acc (c :: rest) =
        create_program_aux 1 (acc ++ [c]) rest) ∧
    (∀ acc rest, create_program_aux 2 acc (164 :: rest) =
      (create_program_aux 2 [] rest).map (fun l => flush_text acc ++ l)) ∧
    (∀ acc rest, create_program_aux 2 acc (255 :: rest) =
      create_program_aux 2 (if acc = [] then [] else acc ++ [255]) rest) ∧
    (∀ acc, create_program_aux 2 acc [] = none) ∧
    (∀ acc, create_program_aux 1 acc [] = some (flush_text acc)) := by
  refine ⟨cp_aux_state1_percent, cp_aux_state2_u,
    fun c hc hne => cp_aux_state1_text c hc hne,
    fun c hc hc2 => cp_aux_state1_big c hc hc2,
    fun c hc hne => cp_aux_state2_other c hc hne,
    fun c h1 h2 hne1 hne2 => cp_aux_state2_high_text c h1 h2 hne1 hne2,
    cp_aux_state2_high_noop, cp_aux_state2_skip,
    cp_aux_state2_nil, cp_aux_state1_nil⟩

theorem claim_C4_automaton_witness :
    create_program_aux 1 [] [97, 117] = create_program_aux 1 [97] [117] ∧
    create_program_aux 2 [] [200] = create_program_aux 1 [200] [] := by
  constructor
  · have h := claim_C4_automaton.2.2.1 97 (by decide) (by decide) [] [117]
    simpa using h
  · have h := claim_C4_automaton.2.2.2.2.2.1 200 (by decide) (by decide)
      (by decide) (by decide) [] []
    simpa using h

/-- C4 counterexample to the transition table as originally claimed: the
blueprint "%\xFFu" (bytes 37, 255, 117) compiles — its 0xFF, a byte other
than `u` in state 2, is silently skipped instead of failing compilation —
and the single high byte 200, a byte other than `%` in state 1, fails
compilation instead of extending the literal span. -/
theorem claim_C4_automaton_counterexample :
    create_program [37, 255, 117] = some [op.uint8] ∧
    create_program [200] = none := by
  constructor
  · decide
  · decide

/-- C7 (corrected): for every valid 7-bit blueprint the compiled program
has adjacent literal text coalesced into single non-empty Text
operations, and its placeholder count equals the number of `%u`
occurrences in the blueprint; for the C/C++ target the three blueprints
are initial = "%u", single = ", %u", and chunk = the single pattern
repeated exactly 32 times. The 7-bit restriction is necessary: through
the signed-char aliasing a blueprint holding bytes above 127 can compile
with adjacent text operations or with a placeholder count different from
its `%u` count. -/
theorem claim_C7_program_invariants :
    (∀ bp l, (∀ b ∈ bp, b < 128) → create_program bp = some l →
      no_adjacent_text l = true ∧ texts_nonempty l = true ∧
      count_uint8_ops l = count_percent_u bp) ∧
    initial_printf_pattern = strBytes "%u" ∧
    single_printf_pattern = strBytes ", %u" ∧
    printf_pattern = (List.replicate 32 single_printf_pattern).flatten := by
  refine ⟨fun bp l hb h => (cp_invariant bp.length bp le_rfl hb).1 [] l h,
    rfl, rfl, ?_⟩
  rw [printf_pattern, generate_chunked_flatten]

theorem claim_C7_program_invariants_witness :
    no_adjacent_text [op.text [44, 32], op.uint8] = true ∧
    texts_nonempty [op.text [44, 32], op.uint8] = true ∧
    count_uint8_ops [op.text [44, 32], op.uint8] =
      count_percent_u single_printf_pattern :=
  claim_C7_program_invariants.1 single_printf_pattern
    [op.text [44, 32], op.uint8] (by decide) (by decide)

/-- C7 counterexample to the invariants over arbitrary blueprints: the
blueprint "%\xFFu" (bytes 37, 255, 117) is accepted — its 0xFF is skipped
through the aliased EOFOP cell — and compiles to one placeholder although
it contains no `%u` occurrence; and the blueprint bytes 97, 37, 128, 98
("a%\x80b") compile to two adjacent text operations, the high byte having
aliased onto a row-1 TEXT cell from state 2. -/
theorem claim_C7_program_invariants_counterexample :
    create_program [37, 255, 117] = some [op.uint8] ∧
    count_uint8_ops [op.uint8] = 1 ∧
    count_percent_u [37, 255, 117] = 0 ∧
    create_program [97, 37, 128, 98] =
      some [op.text [97], op.text [128, 98]] ∧
    no_adjacent_text [op.text [97], op.text [128, 98]] = false := by
  refine ⟨by decide, by decide, by decide, by decide, by decide⟩

/-- Execution into the memory sink is total whenever the argument list
covers the placeholders, and it advances the write pointer by exactly the
number of bytes written. -/
theorem execute_program_total : ∀ (prog : List op) (args : List Nat)
    (o : memory_outputter), count_uint8_ops prog ≤ args.length →
    ∃ d, execute_program prog args o = some ⟨o.inner_ptr + d.length, o.written ++ d⟩ := by
  intro prog
  induction prog with
  | nil =>
    intro args o _
    exact ⟨[], by simp [execute_program]⟩
  | cons x rest ih =>
    intro args o hcount
    cases x with
    | text s =>
      have hc : count_uint8_ops rest ≤ args.length := by
        simpa [count_uint8_ops] using hcount
      obtain ⟨d, hd⟩ := ih args (o.copy_input_from_ptr s) hc
      refine ⟨s ++ d, ?_⟩
      rw [show execute_program (op.text s :: rest) args o =
        execute_program rest args (o.copy_input_from_ptr s) from rfl, hd]
      simp [memory_outputter.copy_input_from_ptr]
      omega
    | uint8 =>
      cases args with
      | nil => simp [count_uint8_ops] at hcount
      | cons a args =>
        have hc : count_uint8_ops rest ≤ args.length := by
          simp [count_uint8_ops] at hcount
          omega
        obtain ⟨d, hd⟩ := ih args (o.copy_input_from_ptr (output_uint8 a)) hc
        refine ⟨output_uint8 a ++ d, ?_⟩
        rw [show execute_program (op.uint8 :: rest) (a :: args) o =
          execute_program rest args (o.copy_input_from_ptr (output_uint8 a)) from rfl, hd]
        simp [memory_outputter.copy_input_from_ptr]
        omega

/-- C10: for every operation program and argument list covering its
placeholders, formatting into the memory sink succeeds, and
`meta_sprintf_no_terminator` returns the non-negative count of bytes
emitted — never -1 — so the `bytesWritten == -1` branches that follow
memory-sink emits in the transport engines are unreachable. -/
theorem claim_C10_memory_sink_total :
    ∀ (prog : List op) (args : List Nat),
      count_uint8_ops prog ≤ args.length →
      ∃ (out : memory_outputter) (r : Int),
        execute_program prog args ⟨0, []⟩ = some out ∧
        meta_sprintf_no_terminator prog args = some r ∧
        r = (out.written.length : Int) ∧ r ≠ -1 ∧ 0 ≤ r := by
  intro prog args h
  obtain ⟨d, hd⟩ := execute_program_total prog args ⟨0, []⟩ h
  refine ⟨⟨0 + d.length, [] ++ d⟩, (d.length : Int), hd, ?_, by simp, by omega, by omega⟩
  simp [meta_sprintf_no_terminator, hd]

theorem claim_C10_memory_sink_total_witness :
    ∃ (out : memory_outputter) (r : Int),
      execute_program [op.uint8] [7] ⟨0, []⟩ = some out ∧
      meta_sprintf_no_terminator [op.uint8] [7] = some r ∧
      r = (out.written.length : Int) ∧ r ≠ -1 ∧ 0 ≤ r :=
  claim_C10_memory_sink_total [op.uint8] [7] (by decide)

theorem sprintf_bytes_initial (b : Nat) :
    sprintf_bytes initial_program [b] = some (output_uint8 b) := by
  simp [sprintf_bytes, initial_program_val, execute_program,
    memory_outputter.copy_input_from_ptr]

theorem sprintf_bytes_single (b : Nat) :
    sprintf_bytes single_program [b] = some ([44, 32] ++ output_uint8 b) := by
  simp [sprintf_bytes, single_program_val, execute_program,
    memory_outputter.copy_input_from_ptr]

/-- Executing n repetitions of a text-then-placeholder unit emits the
separator and decimal text of each of the n arguments in order. -/
theorem exec_units (t : List Nat) : ∀ (n : Nat) (args : List Nat)
    (o : memory_outputter), args.length = n →
    execute_program ((List.replicate n [op.text t, op.uint8]).flatten) args o =
      some ⟨o.inner_ptr + ((args.map (fun a => t ++ output_uint8 a)).flatten).length,
            o.written ++ (args.map (fun a => t ++ output_uint8 a)).flatten⟩ := by
  intro n
  induction n with
  | zero =>
    intro args o h
    obtain rfl : args = [] := List.length_eq_zero.mp h
    simp [execute_program]
  | succ n ih =>
    intro args o h
    cases args with
    | nil => simp at h
    | cons a args =>
      have ha : args.length = n := by simpa using h
      rw [List.replicate_succ, List.flatten_cons]
      rw [show ([op.text t, op.uint8] ++ (List.replicate n [op.text t, op.uint8]).flatten)
        = op.text t :: op.uint8 :: (List.replicate n [op.text t, op.uint8]).flatten from rfl]
      rw [show execute_program (op.text t :: op.uint8 ::
          (List.replicate n [op.text t, op.uint8]).flatten) (a :: args) o =
        execute_program ((List.replicate n [op.text t, op.uint8]).flatten) args
          ((o.copy_input_from_ptr t).copy_input_from_ptr (output_uint8 a)) from rfl]
      rw [ih args _ ha]
      simp [memory_outputter.copy_input_from_ptr]
      omega

theorem sprintf_bytes_chunked (args : List Nat) (h : args.length = 32) :
    sprintf_bytes chunked_program args =
      some ((args.map (fun a => [44, 32] ++ output_uint8 a)).flatten) := by
  rw [sprintf_bytes, chunked_program_val, exec_units [44, 32] 32 args ⟨0, []⟩ h]
  simp

theorem singles_emit_eq : ∀ bs : List Nat,
    singles_emit bs = some ((bs.map (fun b => [44, 32] ++ output_uint8 b)).flatten) := by
  intro bs
  induction bs with
  | nil => simp [singles_emit]
  | cons b bs ih => simp [singles_emit, sprintf_bytes_single, ih]

theorem chunk_loop_go_eq : ∀ (fuel : Nat) (bs : List Nat),
    bs.length ≤ fuel * 32 + 31 →
    chunk_loop_go fuel bs =
      some ((bs.map (fun b => [44, 32] ++ output_uint8 b)).flatten) := by
  intro fuel
  induction fuel with
  | zero =>
    intro bs h
    have : ¬ 32 ≤ bs.length := by omega
    simp [chunk_loop_go, this, singles_emit_eq]
  | succ fuel ih =>
    intro bs h
    by_cases h32 : 32 ≤ bs.length
    · rw [chunk_loop_go, if_pos h32]
      have htake : (bs.take 32).length = 32 := by
        rw [List.length_take]; omega
      have hdrop : (bs.drop 32).length ≤ fuel * 32 + 31 := by
        rw [List.length_drop]; omega
      rw [sprintf_bytes_chunked _ htake, ih _ hdrop]
      simp only [Option.some.injEq]
      rw [← List.flatten_append, ← List.map_append, List.take_append_drop]
    · simp [chunk_loop_go, h32, singles_emit_eq]

theorem chunk_loop_eq (bs : List Nat) :
    chunk_loop bs = some ((bs.map (fun b => [44, 32] ++ output_uint8 b)).flatten) :=
  chunk_loop_go_eq bs.length bs (by omega)

theorem dataMode_read_write_nil : dataMode_read_write [] = engine_result.no_data := rfl

/-- Whatever the chunk grouping, the buffered engine emits the first byte
with the initial program followed by separator-and-decimal for each later
byte, in input order. -/
theorem dataMode_read_write_render (b : Nat) (bs : List Nat) :
    dataMode_read_write (b :: bs) =
      engine_result.success
        (output_uint8 b ++ (bs.map (fun x => [44, 32] ++ output_uint8 x)).flatten) := by
  simp [dataMode_read_write, sprintf_bytes_initial, chunk_loop_eq]

theorem intercalate_cons_flatten (s x : List Nat) (xs : List (List Nat)) :
    List.intercalate s (x :: xs) = x ++ (xs.map (fun y => s ++ y)).flatten := by
  induction xs generalizing x with
  | nil => simp [List.intercalate]
  | cons y ys ih =>
    rw [show List.intercalate s (x :: y :: ys)
      = x ++ s ++ List.intercalate s (y :: ys) from by
        simp [List.intercalate, List.intersperse]]
    rw [ih y]
    simp

theorem decRepr_digits : ∀ v : Fin 256,
    (∀ d ∈ decRepr v.val, 48 ≤ d ∧ d ≤ 57) ∧ decRepr v.val ≠ [] := by
  decide

theorem parse_dec_decRepr : ∀ v : Fin 256, parse_dec (decRepr v.val) = v.val := by
  decide

theorem not_mem_44_decRepr (v : Nat) (hv : v < 256) : 44 ∉ decRepr v := by
  intro hmem
  have := ((decRepr_digits ⟨v, hv⟩).1 44 hmem).1
  omega

theorem dropWhile32_decRepr (v : Nat) (hv : v < 256) :
    (decRepr v).dropWhile (fun d => d == 32) = decRepr v := by
  obtain ⟨hall, hne⟩ := decRepr_digits ⟨v, hv⟩
  cases h : decRepr v with
  | nil => exact absurd h hne
  | cons d ds =>
    have hd : 48 ≤ d := (hall d (by rw [h]; exact List.mem_cons_self d ds)).1
    have : (d == 32) = false := by simpa using (by omega : d ≠ 32)
    simp [List.dropWhile_cons, this]

theorem decode_pieces : ∀ (rest : List Nat), (∀ b ∈ rest, b < 256) →
    (rest.map (fun v => 32 :: decRepr v)).map
      (fun p => parse_dec (p.dropWhile (fun d => d == 32))) = rest := by
  intro rest
  induction rest with
  | nil => intro _; simp
  | cons v vs ih =>
    intro hmem
    have hv : v < 256 := hmem v (List.mem_cons_self v vs)
    simp only [List.map_cons]
    rw [show List.dropWhile (fun d => d == 32) (32 :: decRepr v)
      = List.dropWhile (fun d => d == 32) (decRepr v) from by
        simp [List.dropWhile_cons]]
    rw [dropWhile32_decRepr v hv, parse_dec_decRepr ⟨v, hv⟩]
    rw [ih (fun b hb => hmem b (List.mem_cons_of_mem v hb))]

theorem intercalate_two_sep (b0 : Nat) (rest : List Nat) :
    List.intercalate [44, 32] ((b0 :: rest).map decRepr) =
      [44].intercalate (decRepr b0 :: rest.map (fun v => 32 :: decRepr v)) := by
  rw [List.map_cons, intercalate_cons_flatten, intercalate_cons_flatten]
  congr 1
  rw [List.map_map, List.map_map]
  rfl

/-- Splitting the emitted body at commas and parsing each decimal piece
recovers the input bytes, which is the round-trip content of the framing
law. -/
theorem decode_body_intercalate (S : List Nat) (hS : S ≠ [])
    (hmem : ∀ b ∈ S, b < 256) :
    decode_body (List.intercalate (strBytes ", ") (S.map decRepr)) = S := by
  cases S with
  | nil => exact absurd rfl hS
  | cons b0 rest =>
    have hb0 : b0 < 256 := hmem b0 (List.mem_cons_self b0 rest)
    have hrest : ∀ b ∈ rest, b < 256 :=
      fun b hb => hmem b (List.mem_cons_of_mem b0 hb)
    rw [show strBytes ", " = [44, 32] from rfl, intercalate_two_sep]
    unfold decode_body
    have hx : ∀ l ∈ (decRepr b0 :: rest.map (fun v => 32 :: decRepr v)), 44 ∉ l := by
      intro l hl
      rcases List.mem_cons.mp hl with rfl | hl2
      · exact not_mem_44_decRepr b0 hb0
      · rcases List.mem_map.mp hl2 with ⟨v, hv, rfl⟩
        intro hmem44
        rcases List.mem_cons.mp hmem44 with h44 | h44
        · omega
        · exact not_mem_44_decRepr v (hrest v hv) h44
    have hls : (decRepr b0 :: rest.map (fun v => 32 :: decRepr v)) ≠ [] := by simp
    rw [List.splitOn_intercalate (decRepr b0 :: rest.map (fun v => 32 :: decRepr v)) 44 hx hls]
    rw [List.map_cons, dropWhile32_decRepr b0 hb0, parse_dec_decRepr ⟨b0, hb0⟩,
      decode_pieces rest hrest]

theorem render_body (b : Nat) (bs : List Nat) (hb : b < 256)
    (hbs : ∀ x ∈ bs, x < 256) :
    output_uint8 b ++ (bs.map (fun x => [44, 32] ++ output_uint8 x)).flatten =
      List.intercalate (strBytes ", ") ((b :: bs).map decRepr) := by
  rw [show strBytes ", " = [44, 32] from rfl, List.map_cons, intercalate_cons_flatten,
    output_uint8_decimal b hb, List.map_map]
  congr 1
  apply congrArg
  apply List.map_congr_left
  intro x hx
  simp [output_uint8_decimal x (hbs x hx)]

/-- C1: for every non-empty stdin byte sequence S and valid language
argument, stdout is exactly the declaration head (`const char <NAME>[] = { `
for c, `const char <NAME>[] { ` for c++), the decimal values of the bytes
of S in input order separated by exactly ", ", and the trailer ` };\n`;
decoding the body recovers S element-wise, and the rendered value list has
length |S|. -/
theorem claim_C1_framing : ∀ (varname S : List Nat), S ≠ [] →
    (∀ b ∈ S, b < 256) →
    outputSource (strBytes "c") varname S =
      proc_result.ok (strBytes "const char " ++ varname ++ strBytes "[] = \x7b "
        ++ List.intercalate (strBytes ", ") (S.map decRepr) ++ strBytes " \x7d;\n") ∧
    outputSource (strBytes "c++") varname S =
      proc_result.ok (strBytes "const char " ++ varname ++ strBytes "[] \x7b "
        ++ List.intercalate (strBytes ", ") (S.map decRepr) ++ strBytes " \x7d;\n") ∧
    decode_body (List.intercalate (strBytes ", ") (S.map decRepr)) = S ∧
    (S.map decRepr).length = S.length := by
  intro varname S hS hmem
  cases S with
  | nil => exact absurd rfl hS
  | cons b bs =>
    have hb : b < 256 := hmem b (List.mem_cons_self b bs)
    have hbs : ∀ x ∈ bs, x < 256 := fun x hx => hmem x (List.mem_cons_of_mem b hx)
    have hrender := dataMode_read_write_render b bs
    refine ⟨?_, ?_, decode_body_intercalate _ hS hmem, by simp⟩
    · rw [outputSource, if_neg (by decide), if_pos rfl, output_C_CPP_array_data,
        hrender]
      rw [← render_body b bs hb hbs]
    · rw [outputSource, if_pos rfl, output_C_CPP_array_data, hrender]
      rw [← render_body b bs hb hbs]

theorem claim_C1_framing_witness :
    outputSource (strBytes "c") (strBytes "data") [0, 255] =
      proc_result.ok (strBytes "const char " ++ strBytes "data" ++ strBytes "[] = \x7b "
        ++ List.intercalate (strBytes ", ") ([0, 255].map decRepr)
        ++ strBytes " \x7d;\n") :=
  (claim_C1_framing (strBytes "data") [0, 255] (by decide) (by decide)).1

/-- C6: with an empty stdin and a language that requires data (c or c++)
selected, the process writes exactly
`ERROR: no data received, language requires data\n` to stderr and exits
with EXIT_FAILURE (1). -/
theorem claim_C6_empty_input_error : ∀ varname : List Nat,
    outputSource (strBytes "c") varname [] =
      proc_result.exited (strBytes "const char " ++ varname ++ strBytes "[] = \x7b ")
        (strBytes "ERROR: no data received, language requires data\n") 1 ∧
    outputSource (strBytes "c++") varname [] =
      proc_result.exited (strBytes "const char " ++ varname ++ strBytes "[] \x7b ")
        (strBytes "ERROR: no data received, language requires data\n") 1 := by
  intro varname
  constructor
  · rw [outputSource, if_neg (by decide), if_pos rfl, output_C_CPP_array_data,
      dataMode_read_write_nil]
    rfl
  · rw [outputSource, if_pos rfl, output_C_CPP_array_data, dataMode_read_write_nil]
    rfl

/-- C9: when a valid language is given and stdin turns out to be empty,
the declaration head has already been written to stdout (and flushed)
before the missing-data condition is detected: the error exit carries a
non-empty stdout equal to that head. -/
theorem claim_C9_head_written_before_error : ∀ varname : List Nat,
    (∃ stderr code, outputSource (strBytes "c") varname [] =
      proc_result.exited (strBytes "const char " ++ varname ++ strBytes "[] = \x7b ")
        stderr code) ∧
    strBytes "const char " ++ varname ++ strBytes "[] = \x7b " ≠ [] ∧
    (∃ stderr code, outputSource (strBytes "c++") varname [] =
      proc_result.exited (strBytes "const char " ++ varname ++ strBytes "[] \x7b ")
        stderr code) ∧
    strBytes "const char " ++ varname ++ strBytes "[] \x7b " ≠ [] := by
  intro varname
  refine ⟨⟨strBytes "ERROR: no data received, language requires data\n", 1, ?_⟩,
    by simp [strBytes],
    ⟨strBytes "ERROR: no data received, language requires data\n", 1, ?_⟩,
    by simp [strBytes]⟩
  · rw [outputSource, if_neg (by decide), if_pos rfl, output_C_CPP_array_data,
      dataMode_read_write_nil]
    rfl
  · rw [outputSource, if_pos rfl, output_C_CPP_array_data, dataMode_read_write_nil]
    rfl

theorem output_uint8_65 : output_uint8 65 = strBytes "65" := by
  rw [output_uint8_decimal 65 (by omega)]
  decide

theorem output_uint8_0 : output_uint8 0 = strBytes "0" := by
  rw [output_uint8_decimal 0 (by omega)]
  decide

/-- C3: the four transport engines do not produce byte-identical stdout.
For a regular one-byte stdin file (byte 65) with a non-pipe stdout, the
buffered engine outputs exactly "65", but the chunk-loop bound
`stdinFileSize + 1 - 32` of `dataMode_mmap_write` wraps around in size_t
arithmetic (to 2^64 - 30), so its chunk loop runs at position 1 on a
1-byte file; the corresponding cutoff comparison of
`dataMode_mmap_vmsplice` also keeps its chunk path. The first chunk reads
offsets 1..32 of the mapping — past the 1-byte file, where the page is
zero-filled — so the mmap engine's stdout starts with
"65, 0, 0, ..." and cannot equal "65". -/
theorem claim_C3_transport_divergence :
    dataMode_read_write [65] = engine_result.success (strBytes "65") ∧
    mmap_write_loop_bound 1 = SIZE_T_MOD - 30 ∧
    1 < mmap_write_loop_bound 1 ∧
    ¬ 1 > mmap_vmsplice_cutoff 1 ∧
    dataMode_mmap_write_output_head [65] =
      some (strBytes "65" ++ (List.replicate 32 (strBytes ", 0")).flatten) ∧
    strBytes "65" ++ (List.replicate 32 (strBytes ", 0")).flatten ≠
      strBytes "65" := by
  refine ⟨?_, by decide, by decide, by decide, ?_, by decide⟩
  · rw [dataMode_read_write_render 65 []]
    rw [output_uint8_65]
    simp
  · rw [dataMode_mmap_write_output_head]
    rw [sprintf_bytes_initial 65]
    show (if 1 < mmap_write_loop_bound ([65] : List Nat).length then
        (sprintf_bytes chunked_program
          ((List.range 32).map (fun j => mmap_byte [65] (1 + j)))).map
          (fun c => output_uint8 65 ++ c)
      else some (output_uint8 65)) =
      some (strBytes "65" ++ (List.replicate 32 (strBytes ", 0")).flatten)
    rw [if_pos (by decide)]
    have hargs : (List.range 32).map (fun j => mmap_byte [65] (1 + j)) =
        List.replicate 32 0 := by decide
    rw [hargs, sprintf_bytes_chunked (List.replicate 32 0) (by simp)]
    rw [Option.map_some']
    rw [output_uint8_65, List.map_replicate, output_uint8_0]
    rfl

theorem stream_read_eof : ∀ (m B : Nat), 1 ≤ B → ∀ (n : Nat)
    (active remaining : List Nat), remaining.length ≤ m →
    active.length + remaining.length < n →
    stream_read B n active remaining = active ++ remaining := by
  intro m
  induction m with
  | zero =>
    intro B hB n active remaining hm hn
    obtain rfl : remaining = [] := List.length_eq_zero.mp (Nat.le_zero.mp hm)
    rw [stream_read]
    rw [if_neg (by omega), if_pos rfl]
    simp
  | succ m ih =>
    intro B hB n active remaining hm hn
    by_cases hrem : remaining = []
    · subst hrem
      rw [stream_read, if_neg (by simp at hn ⊢; omega), if_pos rfl]
      simp
    · rw [stream_read, if_neg (by omega), if_neg hrem, if_neg (by omega)]
      by_cases hshort : remaining.length < B
      · rw [show reader_fill B remaining =
          ⟨remaining, [], some remaining.length, false, false⟩ from by
            simp [reader_fill, hshort]]
        rw [ih B hB (n - active.length) remaining [] (by simp) (by simp; omega)]
        simp
      · rw [show reader_fill B remaining =
          ⟨remaining.take B, remaining.drop B, none, false, true⟩ from by
            simp [reader_fill, hshort]]
        rw [ih B hB (n - active.length) (remaining.take B) (remaining.drop B)
          (by simp [List.length_drop]; omega)
          (by simp [List.length_take, List.length_drop]; omega)]
        simp

/-- C5 (spec-modelled): when EOF arrives before a read request is
satisfied, the async stdin stream returns every byte it has gathered — a
count strictly smaller than requested, signalling EOF — instead of
blocking or erroring; and the background reader's short fill records the
valid end position, clears the pending flag, and terminates the thread. -/
theorem claim_C5_eof_partial_read :
    (∀ (B : Nat), 1 ≤ B → ∀ (n : Nat) (active remaining : List Nat),
      active.length + remaining.length < n →
      stream_read B n active remaining = active ++ remaining ∧
      (active ++ remaining).length < n) ∧
    (∀ (B : Nat) (remaining : List Nat), remaining.length < B →
      reader_fill B remaining =
        ⟨remaining, [], some remaining.length, false, false⟩ ∧
      (reader_fill B remaining).io_pending = false ∧
      (reader_fill B remaining).reader_alive = false ∧
      (reader_fill B remaining).stream_write_head = some remaining.length) := by
  constructor
  · intro B hB n active remaining hn
    refine ⟨stream_read_eof remaining.length B hB n active remaining le_rfl hn, ?_⟩
    simp
    omega
  · intro B remaining hshort
    simp [reader_fill, hshort]

theorem claim_C5_eof_partial_read_witness :
    stream_read 2 5 [1] [2, 3] = [1] ++ [2, 3] ∧ ([1] ++ [2, 3]).length < 5 :=
  claim_C5_eof_partial_read.1 2 (by decide) 5 [1] [2, 3] (by decide)

theorem stdout_write_spec : ∀ (m B : Nat) (input active : List Nat),
    input.length ≤ m → active.length < B →
    (stdout_write B input active).1 ++ (stdout_write B input active).2 =
      active ++ input ∧
    (stdout_write B input active).2.length < B := by
  intro m
  induction m with
  | zero =>
    intro B input active hm hact
    obtain rfl : input = [] := List.length_eq_zero.mp (Nat.le_zero.mp hm)
    rw [stdout_write]
    rw [if_pos (by simp; omega)]
    simp
    exact hact
  | succ m ih =>
    intro B input active hm hact
    have hfree : 1 ≤ B - active.length := by omega
    rw [stdout_write]
    by_cases hlt : input.length < B - active.length
    · rw [if_pos hlt]
      constructor
      · simp
      · simp
        omega
    · rw [if_neg hlt, if_neg (by omega)]
      have hrec := ih B (input.drop (B - active.length)) []
        (by simp [List.length_drop]; omega) (by simp; omega)
      refine ⟨?_, hrec.2⟩
      simp only []
      rw [List.append_assoc, hrec.1]
      simp [List.take_append_drop]

theorem stdout_foldl_spec (B : Nat) (hB : 1 ≤ B) : ∀ (ws : List (List Nat))
    (out act : List Nat), act.length < B →
    ((ws.foldl (fun (s : List Nat × List Nat) w =>
        let r := stdout_write B w s.2
        (s.1 ++ r.1, r.2)) (out, act)).1 ++
      (ws.foldl (fun (s : List Nat × List Nat) w =>
        let r := stdout_write B w s.2
        (s.1 ++ r.1, r.2)) (out, act)).2) = out ++ act ++ ws.flatten := by
  intro ws
  induction ws with
  | nil => intro out act hact; simp
  | cons w ws ih =>
    intro out act hact
    obtain ⟨hw1, hw2⟩ := stdout_write_spec w.length B w act le_rfl hact
    rw [List.foldl_cons]
    simp only []
    rw [ih (out ++ (stdout_write B w act).1) (stdout_write B w act).2 hw2]
    rw [List.flatten_cons]
    rw [show out ++ (stdout_write B w act).1 ++ (stdout_write B w act).2 ++ ws.flatten
      = out ++ ((stdout_write B w act).1 ++ (stdout_write B w act).2) ++ ws.flatten from by
        simp [List.append_assoc]]
    rw [hw1]
    simp [List.append_assoc]

/-- C8 (spec-modelled): a producer session `write(w1); ...; flush();
dispose()` on the async stdout stream delivers to stdout exactly the
concatenation of the writes in order, without loss or reordering, for
every buffer size B >= 1. -/
theorem claim_C8_stream_ordering : ∀ (B : Nat), 1 ≤ B →
    ∀ ws : List (List Nat), stdout_run B ws = ws.flatten := by
  intro B hB ws
  rw [stdout_run]
  simp only []
  rw [stdout_foldl_spec B hB ws [] [] (by simp; omega)]
  simp

theorem claim_C8_stream_ordering_witness :
    stdout_run 1 [[65], [66, 67]] = [[65], [66, 67]].flatten :=
  claim_C8_stream_ordering 1 (by decide) [[65], [66, 67]]
